import Mathlib

/-!
Verification development for the treemap repository (module tree_data.py).

The core data type is a shallow embedding of the class AbstractTree:
a node stores its root value (label, an Option: none denotes the empty
state), a colour, the ordered list of subtrees and the data_size weight.
Weights are modelled as Int (Python integers are unbounded).  The random
colour chosen by the constructor is passed in explicitly, since the claims
never depend on its value, only on its propagation.  The parent
back-reference is not stored; a node inside a rooted tree is addressed by
the path of child indices from the root, and an ancestor walk of the
source corresponds to updating the nodes along that path.

The float division in generate_treemap, ratio = tree.data_size /
self.data_size followed by math.floor(ratio * max(width, height)), is
modelled as the floor of the exact rational value, Int.fdiv
(tree.data_size * max width height) self.data_size, and likewise
math.ceil(x * 0.01) is modelled as the exact ceiling of x / 100.
-/

namespace Treemap

/-- An RGB colour triple, as produced by randint(0, 255) three times. -/
abbrev Colour := Nat × Nat × Nat

/-- A pygame-style rectangle (x, y, width, height). -/
abbrev Rect := Int × Int × Int × Int

/-- x coordinate of a rectangle. -/
def rX (r : Rect) : Int := r.1

/-- y coordinate of a rectangle. -/
def rY (r : Rect) : Int := r.2.1

/-- width of a rectangle. -/
def rW (r : Rect) : Int := r.2.2.1

/-- height of a rectangle. -/
def rH (r : Rect) : Int := r.2.2.2

/-- Shallow embedding of AbstractTree: _root, colour, _subtrees, data_size. -/
inductive ATree : Type where
  | mk (root : Option String) (colour : Colour) (subtrees : List ATree)
      (data_size : Int) : ATree

/-- The _root attribute (None encodes the empty state). -/
def ATree.root : ATree → Option String
  | .mk r _ _ _ => r

/-- The colour attribute. -/
def ATree.colour : ATree → Colour
  | .mk _ c _ _ => c

/-- The _subtrees attribute. -/
def ATree.subtrees : ATree → List ATree
  | .mk _ _ s _ => s

/-- The data_size attribute. -/
def ATree.data_size : ATree → Int
  | .mk _ _ _ d => d

/-- Sum of the data_size of the trees in a list, as accumulated by the
constructor loop. -/
def sumSizes (l : List ATree) : Int := l.foldl (fun a t => a + t.data_size) 0

/-- AbstractTree.__init__: with an empty subtree list the given data_size
is stored; otherwise the data_size argument is ignored and the node weight
is the sum of the subtree weights (the loop also stamps each child's
parent pointer, which the path-based embedding keeps implicit).  The
randomly sampled colour is an explicit argument here. -/
def mkAbstractTree (root : Option String) (colour : Colour)
    (subtrees : List ATree) (data_size : Int) : ATree :=
  if subtrees.isEmpty then .mk root colour subtrees data_size
  else .mk root colour subtrees (sumSizes subtrees)

/-- AbstractTree.is_empty: true iff _root is None. -/
def ATree.is_empty (t : ATree) : Bool := t.root = none

mutual

/-- AbstractTree.generate_treemap: the treemap layout algorithm. -/
def ATree.generate_treemap : ATree → Rect → List (Rect × Colour)
  | .mk _ colour subtrees d, rect =>
    if d = 0 then []
    else if subtrees.isEmpty then [(rect, colour)]
    else
      match rect with
      | (x, y, width, height) => tmLoop d width height subtrees x y width height

/-- The loop over self._subtrees inside generate_treemap, carrying the
mutable state (x, y, w_left, h_left); S is self.data_size and width,
height are taken from the input rectangle.  The final list element takes
the remainder branch of the if, all others the floor-proportional one. -/
def tmLoop (S width height : Int) :
    List ATree → Int → Int → Int → Int → List (Rect × Colour)
  | [], _, _, _, _ => []
  | [t], x, y, w_left, h_left =>
    if width > height then t.generate_treemap (x, y, w_left, height)
    else t.generate_treemap (x, y, width, h_left)
  | t :: u :: rest, x, y, w_left, h_left =>
    let value := Int.fdiv (t.data_size * max width height) S
    if width > height then
      t.generate_treemap (x, y, value, height) ++
        tmLoop S width height (u :: rest) (x + value) y (w_left - value) h_left
    else
      t.generate_treemap (x, y, width, value) ++
        tmLoop S width height (u :: rest) x (y + value) w_left (h_left - value)

end

mutual

/-- AbstractTree.list_leaves: the leaves of the tree in layout order
(a tree of weight zero contributes nothing). -/
def ATree.list_leaves : ATree → List ATree
  | .mk r c subtrees d =>
    if d = 0 then []
    else if subtrees.isEmpty then [.mk r c subtrees d]
    else llLoop subtrees

/-- The loop over self._subtrees inside list_leaves. -/
def llLoop : List ATree → List ATree
  | [] => []
  | t :: rest => t.list_leaves ++ llLoop rest

end

/-- Membership test of a point in the closed rectangle recorded for a
leaf: x1 less-or-equal x less-or-equal x2 and likewise for y. -/
def containsPoint (pos : Int × Int) (r : Rect) : Bool :=
  decide (rX r ≤ pos.1) && decide (pos.1 ≤ rX r + rW r) &&
    decide (rY r ≤ pos.2) && decide (pos.2 ≤ rY r + rH r)

/-- AbstractTree.get_leaf: pairs the i-th leaf with the i-th treemap
rectangle (the dictionary keyed on distinct leaf objects, iterated in
insertion order) and returns the first leaf whose recorded rectangle
contains the query position, or none. -/
def ATree.get_leaf (t : ATree) (position : Int × Int)
    (treemap : List (Rect × Colour)) : Option ATree :=
  if treemap.isEmpty then none
  else
    ((t.list_leaves.zip (treemap.map Prod.fst)).find?
        (fun pr => containsPoint position pr.2)).map Prod.fst

/-- The node reached from the root of t by following the given list of
child indices; a method call on a node of the source corresponds to
supplying the path of that node here. -/
def resolve : List Nat → ATree → Option ATree
  | [], t => some t
  | i :: p, t =>
    match t.subtrees.get? i with
    | none => none
    | some c => resolve p c

/-- True when the path either does not resolve or resolves to a node with
no subtrees, so that an operation with a leaf precondition may be applied
there. -/
def leafAt (p : List Nat) (t : ATree) : Bool :=
  match resolve p t with
  | none => true
  | some n => n.subtrees.isEmpty

/-- Application of a local mutation f at the end of a path: f rewrites the
addressed node and reports the signed weight change, which the source
applies to every node on the parent chain, that is, to every node along
the path. -/
def pathApply (f : ATree → ATree × Int) : List Nat → ATree → ATree × Int
  | [], t => f t
  | i :: p, .mk r c subs d =>
    match subs.get? i with
    | none => (.mk r c subs d, 0)
    | some ch =>
      let res := pathApply f p ch
      (.mk r c (subs.set i res.1) (d + res.2), res.2)

/-- The effect of AbstractTree.delete on the node it is called on: a no-op
when the node is already empty, otherwise the root is cleared and the
data_size zeroed, with the old weight to be subtracted from all
ancestors. -/
def delLocal : ATree → ATree × Int
  | .mk r c subs d =>
    if r = none then (.mk r c subs d, 0) else (.mk none c subs 0, -d)

/-- math.ceil(d * 0.01), modelled exactly as the ceiling of d / 100. -/
def ceil01 (d : Int) : Int := Int.fdiv (d + 99) 100

/-- The effect of AbstractTree.change_size on the node it is called on:
a 1 percent delta rounded up is added for '+', subtracted for '-' only
when the result stays positive, and any other symbol is a no-op; the
returned delta is applied to all ancestors. -/
def chLocal (symbol : String) : ATree → ATree × Int
  | .mk r c subs d =>
    let value := ceil01 d
    if symbol = "+" then (.mk r c subs (d + value), value)
    else if symbol = "-" ∧ 0 < d - value then (.mk r c subs (d - value), -value)
    else (.mk r c subs d, 0)

/-- AbstractTree.delete, called on the node at path p of tree t. -/
def ATree.delete (p : List Nat) (t : ATree) : ATree := (pathApply delLocal p t).1

/-- AbstractTree.change_size, called on the node at path p of tree t. -/
def ATree.change_size (p : List Nat) (symbol : String) (t : ATree) : ATree :=
  (pathApply (chLocal symbol) p t).1

/-- A mutation of the tree: a delete or a change_size call on the node
addressed by a path. -/
inductive Op : Type where
  | del (p : List Nat) : Op
  | resize (p : List Nat) (symbol : String) : Op

/-- The path of the node an operation is called on. -/
def Op.path : Op → List Nat
  | .del p => p
  | .resize p _ => p

/-- Apply one mutation to the tree. -/
def applyOp (t : ATree) : Op → ATree
  | .del p => t.delete p
  | .resize p s => t.change_size p s

/-- Apply a sequence of mutations from left to right. -/
def applyOps (t : ATree) (ops : List Op) : ATree := ops.foldl applyOp t

mutual

/-- The weight invariant of the representation: every weight is
non-negative and every node with a non-empty subtree list has weight
equal to the sum of its subtrees' weights. -/
def wf : ATree → Bool
  | .mk _ _ subs d =>
    decide (0 ≤ d) && (subs.isEmpty || decide (d = sumSizes subs)) && wfList subs

/-- The weight invariant for every tree in a list. -/
def wfList : List ATree → Bool
  | [] => true
  | t :: ts => wf t && wfList ts

end

mutual

/-- Every positive-weight node with children has a positive-weight last
child, recursively; under this condition the remainder rectangle handed
to the last child is never wasted on a childless zero-weight subtree. -/
def posLast : ATree → Bool
  | .mk _ _ subs d =>
    if d ≤ 0 then true
    else
      match subs.getLast? with
      | none => true
      | some lst => decide (0 < lst.data_size) && posLastList subs

/-- posLast for every tree in a list. -/
def posLastList : List ATree → Bool
  | [] => true
  | t :: ts => posLast t && posLastList ts

end

/-- The trees obtainable by bottom-up construction: a leaf is built with a
non-negative size, and an internal node is built by handing already
constructed children to the constructor. -/
inductive Constructed : ATree → Prop where
  | leaf : ∀ (root : Option String) (colour : Colour) (d : Int), 0 ≤ d →
      Constructed (mkAbstractTree root colour [] d)
  | node : ∀ (root : Option String) (colour : Colour) (subs : List ATree)
      (d : Int), subs ≠ [] → (∀ c ∈ subs, Constructed c) →
      Constructed (mkAbstractTree root colour subs d)

/-- The area of a rectangle, width times height. -/
def rectArea (r : Rect) : Int := rW r * rH r

/-- The total area of the rectangles of a layout. -/
def sumAreas (l : List (Rect × Colour)) : Int :=
  (l.map (fun pr => rectArea pr.1)).sum

/-- The inner rectangle lies inside the outer one. -/
def rectInside (inner outer : Rect) : Prop :=
  rX outer ≤ rX inner ∧ rY outer ≤ rY inner ∧
    rX inner + rW inner ≤ rX outer + rW outer ∧
    rY inner + rH inner ≤ rY outer + rH outer

/-- The two rectangles share no interior point: their open interiors are
disjoint, so they may touch at boundaries only. -/
def rectDisjoint (a b : Rect) : Prop :=
  ¬ (rX a < rX b + rW b ∧ rX b < rX a + rW a ∧
      rY a < rY b + rH b ∧ rY b < rY a + rH a)

/-- The layout exactly tiles the rectangle: total area is preserved, every
piece lies inside, and no two pieces overlap. -/
def Tiles (out : List (Rect × Colour)) (r : Rect) : Prop :=
  sumAreas out = rectArea r ∧ (∀ pr ∈ out, rectInside pr.1 r) ∧
    out.Pairwise (fun a b => rectDisjoint a.1 b.1)

/-- Strip allocation as described by the specification layout section:
with the cursor at (cx, cy) and w_left by h_left remaining, every child
except the last receives a floor-proportional extent along the chosen
axis and advances the cursor, while the last child receives all remaining
extent; vert selects the vertical-split branch, taken when height is at
least width. -/
def stripsGo (S m width height : Int) (vert : Bool) :
    List Int → Int → Int → Int → Int → List Rect
  | [], _, _, _, _ => []
  | [_], cx, cy, w_left, h_left =>
    if vert then [(cx, cy, width, h_left)] else [(cx, cy, w_left, height)]
  | s :: s' :: rest, cx, cy, w_left, h_left =>
    let v := Int.fdiv (s * m) S
    if vert then
      (cx, cy, width, v) ::
        stripsGo S m width height vert (s' :: rest) cx (cy + v) w_left (h_left - v)
    else
      (cx, cy, v, height) ::
        stripsGo S m width height vert (s' :: rest) (cx + v) cy (w_left - v) h_left

/-- The sub-rectangles the specification allots to the children of an
internal node of weight S, given the child weights in order: the
rectangle is sliced along its longer axis, ties treated as the vertical
split. -/
def specChildStrips (S : Int) (rect : Rect) (sizes : List Int) : List Rect :=
  match rect with
  | (x, y, width, height) =>
    stripsGo S (max width height) width height (decide (height ≥ width))
      sizes x y width height

/-- A concrete leaf used by the witnesses. -/
def wLeafA : ATree := mkAbstractTree (some "a") (0, 0, 0) [] 5

/-- A concrete leaf used by the witnesses. -/
def wLeafB : ATree := mkAbstractTree (some "b") (0, 0, 0) [] 7

/-- A concrete two-leaf tree used by the witnesses. -/
def wRoot : ATree := mkAbstractTree (some "r") (0, 0, 0) [wLeafA, wLeafB] 0

/-- A concrete mutation sequence used by the C1 witness. -/
def wOps : List Op := [Op.del [0], Op.resize [1] "+", Op.resize [1] "-"]

/-- The leaf of the concrete tree used by the C6 witness. -/
def w6Leaf : ATree := mkAbstractTree (some "x") (1, 2, 3) [] 4

/-- The concrete tree used by the C6 witness. -/
def w6Root : ATree := mkAbstractTree (some "r") (4, 5, 6) [w6Leaf] 0

/-- The leaf of weight 100 used by the C7 witness. -/
def w7Leaf : ATree := mkAbstractTree (some "c") (0, 0, 0) [] 100

/-- The concrete tree used by the C7 witness. -/
def w7Root : ATree := mkAbstractTree (some "r") (0, 0, 0) [w7Leaf] 0

/-- The weight-1 leaf used by the C7 witness for the no-op case. -/
def w7One : ATree := mkAbstractTree (some "s") (0, 0, 0) [] 1

/-- The China leaf of the population scenario, weight 100. -/
def leafChina : ATree := mkAbstractTree (some "China") (1, 1, 1) [] 100

/-- The India leaf of the population scenario, weight 90. -/
def leafIndia : ATree := mkAbstractTree (some "India") (2, 2, 2) [] 90

/-- The France leaf of the population scenario, weight 10. -/
def leafFrance : ATree := mkAbstractTree (some "France") (3, 3, 3) [] 10

/-- The Asia node of the population scenario, weight 190. -/
def tAsia : ATree := mkAbstractTree (some "Asia") (4, 4, 4) [leafChina, leafIndia] 0

/-- The Europe node of the population scenario, weight 10. -/
def tEurope : ATree := mkAbstractTree (some "Europe") (5, 5, 5) [leafFrance] 0

/-- The World tree of the population scenario, total weight 200. -/
def tWorld : ATree := mkAbstractTree (some "World") (6, 6, 6) [tAsia, tEurope] 0

/-- A tree whose last child is a zero-weight leaf: children of weight 1,
1 and 0, total weight 2. -/
def zeroLastTree : ATree :=
  mkAbstractTree (some "r") (0, 0, 0)
    [mkAbstractTree (some "a") (1, 1, 1) [] 1,
      mkAbstractTree (some "b") (2, 2, 2) [] 1,
      mkAbstractTree (some "z") (3, 3, 3) [] 0] 0

/-- An empty-labelled tree built through the constructor with a non-zero
weight argument, as the constructor precondition alone permits. -/
def emptyLabelTree : ATree := mkAbstractTree none (0, 0, 0) [] 5

/-- A balanced two-leaf tree whose layout of the rectangle from (0,0) to
(2,1) produces two unit strips sharing the boundary x = 1. -/
def boundaryTree : ATree :=
  mkAbstractTree (some "r") (0, 0, 0)
    [mkAbstractTree (some "left") (1, 1, 1) [] 1,
      mkAbstractTree (some "right") (2, 2, 2) [] 1] 0

/-! ### Basic structural lemmas -/

theorem ATree.eta : ∀ t : ATree, ATree.mk t.root t.colour t.subtrees t.data_size = t
  | .mk _ _ _ _ => rfl

@[simp] theorem ATree.root_mk (r : Option String) (c : Colour) (s : List ATree)
    (d : Int) : (ATree.mk r c s d).root = r := rfl

@[simp] theorem ATree.colour_mk (r : Option String) (c : Colour) (s : List ATree)
    (d : Int) : (ATree.mk r c s d).colour = c := rfl

@[simp] theorem ATree.subtrees_mk (r : Option String) (c : Colour) (s : List ATree)
    (d : Int) : (ATree.mk r c s d).subtrees = s := rfl

@[simp] theorem ATree.data_size_mk (r : Option String) (c : Colour) (s : List ATree)
    (d : Int) : (ATree.mk r c s d).data_size = d := rfl

theorem sumSizes_eq_sum_map (l : List ATree) :
    sumSizes l = (l.map ATree.data_size).sum := by
  have key : ∀ (l : List ATree) (a : Int),
      l.foldl (fun a t => a + t.data_size) a = a + (l.map ATree.data_size).sum := by
    intro l
    induction l with
    | nil => intro a; simp
    | cons t ts ih => intro a; simp [ih, add_assoc]
  simpa using key l 0

theorem sumSizes_cons (t : ATree) (l : List ATree) :
    sumSizes (t :: l) = t.data_size + sumSizes l := by
  simp [sumSizes_eq_sum_map]

theorem get?_set_pos : ∀ (l : List ATree) (i : Nat) (a ch : ATree),
    l.get? i = some ch → (l.set i a).get? i = some a
  | [], i, _, _, h => by simp at h
  | x :: xs, 0, a, ch, _ => rfl
  | x :: xs, i + 1, a, ch, h => get?_set_pos xs i a ch h

theorem get?_set_neq : ∀ (l : List ATree) (i j : Nat) (a : ATree), i ≠ j →
    (l.set i a).get? j = l.get? j
  | [], _, _, _, _ => rfl
  | x :: xs, 0, 0, a, h => absurd rfl h
  | x :: xs, 0, j + 1, a, _ => rfl
  | x :: xs, i + 1, 0, a, _ => rfl
  | x :: xs, i + 1, j + 1, a, h =>
    get?_set_neq xs i j a (fun hij => h (congrArg Nat.succ hij))

theorem set_get?_self : ∀ (l : List ATree) (i : Nat) (ch : ATree),
    l.get? i = some ch → l.set i ch = l
  | [], _, _, h => by simp at h
  | x :: xs, 0, ch, h => by
    simp at h
    simp [List.set, h]
  | x :: xs, i + 1, ch, h => by
    simp [List.set, set_get?_self xs i ch h]

theorem sumSizes_set : ∀ (l : List ATree) (i : Nat) (a ch : ATree),
    l.get? i = some ch →
    sumSizes (l.set i a) = sumSizes l - ch.data_size + a.data_size
  | [], i, _, _, h => by simp at h
  | x :: xs, 0, a, ch, h => by
    simp at h
    subst h
    simp [List.set, sumSizes_cons]
    ring
  | x :: xs, i + 1, a, ch, h => by
    simp only [List.set, sumSizes_cons, sumSizes_set xs i a ch h]
    ring

theorem wf_mk (r : Option String) (c : Colour) (subs : List ATree) (d : Int) :
    wf (.mk r c subs d) =
      (decide (0 ≤ d) && (subs.isEmpty || decide (d = sumSizes subs)) && wfList subs) := by
  rw [wf]

theorem wfList_iff : ∀ l : List ATree, wfList l = true ↔ ∀ t ∈ l, wf t = true := by
  intro l
  induction l with
  | nil => simp [wfList]
  | cons t ts ih =>
    rw [wfList]
    simp [ih]

theorem sumSizes_nonneg : ∀ l : List ATree, wfList l = true → 0 ≤ sumSizes l := by
  intro l
  induction l with
  | nil => intro _; simp [sumSizes]
  | cons t ts ih =>
    intro h
    rw [wfList, Bool.and_eq_true] at h
    have h1 : 0 ≤ t.data_size := by
      rcases t with ⟨r, c, subs, d⟩
      rw [wf_mk] at h
      simp at h
      simpa using h.1.1.1
    have h2 := ih h.2
    rw [sumSizes_cons]
    omega

theorem wfList_set (l : List ATree) (i : Nat) (a : ATree) (hl : wfList l = true)
    (ha : wf a = true) : wfList (l.set i a) = true := by
  rw [wfList_iff]
  intro t ht
  rcases List.mem_or_eq_of_mem_set ht with h | h
  · exact (wfList_iff l).mp hl t h
  · rw [h]; exact ha

/-- Induction over the nested tree type: to prove P everywhere it is
enough to prove it for a node assuming it for every subtree. -/
theorem ATree.ind (P : ATree → Prop)
    (h : ∀ (r : Option String) (c : Colour) (subs : List ATree) (d : Int),
      (∀ t ∈ subs, P t) → P (ATree.mk r c subs d)) : ∀ t, P t := by
  have key : ∀ (n : Nat) (t : ATree), sizeOf t ≤ n → P t := by
    intro n
    induction n with
    | zero =>
      intro t ht
      rcases t with ⟨r, c, subs, d⟩
      rw [ATree.mk.sizeOf_spec] at ht
      omega
    | succ n ih =>
      intro t ht
      rcases t with ⟨r, c, subs, d⟩
      apply h
      intro u hu
      apply ih
      have h1 := List.sizeOf_lt_of_mem hu
      rw [ATree.mk.sizeOf_spec] at ht
      omega
  exact fun t => key (sizeOf t) t (Nat.le_refl _)

/-! ### Lemmas about mutations applied along a path -/

theorem resolve_cons (i : Nat) (p : List Nat) (t : ATree) :
    resolve (i :: p) t =
      match t.subtrees.get? i with
      | none => none
      | some c => resolve p c := rfl

theorem isEmpty_set : ∀ (l : List ATree) (i : Nat) (a : ATree),
    (l.set i a).isEmpty = l.isEmpty
  | [], _, _ => rfl
  | _ :: _, 0, _ => rfl
  | _ :: _, _ + 1, _ => rfl

theorem pathApply_not_resolve (f : ATree → ATree × Int) :
    ∀ (p : List Nat) (t : ATree), resolve p t = none → pathApply f p t = (t, 0) := by
  intro p
  induction p with
  | nil => intro t h; simp [resolve] at h
  | cons i p ih =>
    intro t h
    rcases t with ⟨r, c, subs, d⟩
    rw [resolve_cons] at h
    rw [pathApply]
    cases hg : subs.get? i with
    | none => simp
    | some ch =>
      simp only [ATree.subtrees_mk, hg] at h
      simp only [hg]
      rw [ih ch h, set_get?_self subs i ch hg]
      simp

theorem pathApply_data_size (f : ATree → ATree × Int)
    (Hds : ∀ u, ((f u).1).data_size = u.data_size + (f u).2) :
    ∀ (p : List Nat) (t : ATree),
      ((pathApply f p t).1).data_size = t.data_size + (pathApply f p t).2 := by
  intro p
  cases p with
  | nil => intro t; exact Hds t
  | cons i p =>
    intro t
    rcases t with ⟨r, c, subs, d⟩
    rw [pathApply]
    cases hg : subs.get? i with
    | none => simp
    | some ch => simp

theorem pathApply_delta (f : ATree → ATree × Int) :
    ∀ (p : List Nat) (t l : ATree), resolve p t = some l →
      (pathApply f p t).2 = (f l).2 := by
  intro p
  induction p with
  | nil =>
    intro t l h
    simp [resolve] at h
    subst h
    rfl
  | cons i p ih =>
    intro t l h
    rcases t with ⟨r, c, subs, d⟩
    rw [resolve_cons] at h
    rw [pathApply]
    cases hg : subs.get? i with
    | none =>
      rw [List.get?_eq_getElem?] at hg
      simp [hg] at h
    | some ch =>
      simp only [ATree.subtrees_mk, hg] at h
      simp only [hg]
      exact ih ch l h

theorem pathApply_resolve_self (f : ATree → ATree × Int) :
    ∀ (p : List Nat) (t l : ATree), resolve p t = some l →
      resolve p (pathApply f p t).1 = some (f l).1 := by
  intro p
  induction p with
  | nil =>
    intro t l h
    simp [resolve] at h
    subst h
    rfl
  | cons i p ih =>
    intro t l h
    rcases t with ⟨r, c, subs, d⟩
    rw [resolve_cons] at h
    rw [pathApply]
    cases hg : subs.get? i with
    | none =>
      rw [List.get?_eq_getElem?] at hg
      simp [hg] at h
    | some ch =>
      simp only [ATree.subtrees_mk, hg] at h
      simp only [hg, resolve_cons, ATree.subtrees_mk,
        get?_set_pos subs i (pathApply f p ch).1 ch hg]
      exact ih ch l h

theorem pathApply_prefix_ds (f : ATree → ATree × Int)
    (Hds : ∀ u, ((f u).1).data_size = u.data_size + (f u).2) :
    ∀ (p : List Nat) (t l : ATree), resolve p t = some l →
      ∀ q : List Nat, q <+: p → q ≠ p →
      (resolve q (pathApply f p t).1).map ATree.data_size
        = (resolve q t).map (fun n => n.data_size + (f l).2) := by
  intro p
  induction p with
  | nil =>
    intro t l h q hq hne
    rw [List.prefix_nil] at hq
    exact absurd hq hne
  | cons i p ih =>
    intro t l h q hq hne
    rcases t with ⟨r, c, subs, d⟩
    rw [resolve_cons] at h
    cases hg : subs.get? i with
    | none =>
      rw [List.get?_eq_getElem?] at hg
      simp [hg] at h
    | some ch =>
      simp only [ATree.subtrees_mk, hg] at h
      rw [pathApply]
      simp only [hg]
      cases q with
      | nil =>
        rw [pathApply_delta f p ch l h]
        simp [resolve]
      | cons j q =>
        rw [List.cons_prefix_cons] at hq
        rcases hq with ⟨hji, hq⟩
        subst hji
        have hne2 : q ≠ p := fun hqp => hne (by rw [hqp])
        simp only [resolve_cons, ATree.subtrees_mk,
          get?_set_pos subs j (pathApply f p ch).1 ch hg, hg]
        exact ih ch l h q hq hne2

theorem pathApply_offpath (f : ATree → ATree × Int)
    (Hsubs : ∀ u, ((f u).1).subtrees = u.subtrees) :
    ∀ (p : List Nat) (t l : ATree), resolve p t = some l →
      ∀ q : List Nat, ¬ q <+: p →
      resolve q (pathApply f p t).1 = resolve q t := by
  intro p
  induction p with
  | nil =>
    intro t l h q hq
    cases q with
    | nil => exact absurd (List.nil_prefix) hq
    | cons j q =>
      rw [pathApply]
      rw [resolve_cons, resolve_cons, Hsubs t]
  | cons i p ih =>
    intro t l h q hq
    rcases t with ⟨r, c, subs, d⟩
    rw [resolve_cons] at h
    cases hg : subs.get? i with
    | none =>
      rw [List.get?_eq_getElem?] at hg
      simp [hg] at h
    | some ch =>
      simp only [ATree.subtrees_mk, hg] at h
      rw [pathApply]
      simp only [hg]
      cases q with
      | nil => exact absurd (List.nil_prefix) hq
      | cons j q =>
        by_cases hji : j = i
        · subst hji
          have hq2 : ¬ q <+: p := fun hql => hq (List.cons_prefix_cons.mpr ⟨rfl, hql⟩)
          simp only [resolve_cons, ATree.subtrees_mk,
            get?_set_pos subs j (pathApply f p ch).1 ch hg, hg]
          exact ih ch l h q hq2
        · simp only [resolve_cons, ATree.subtrees_mk,
            get?_set_neq subs i j (pathApply f p ch).1 (fun hij => hji hij.symm)]

theorem pathApply_noop (f : ATree → ATree × Int) :
    ∀ (p : List Nat) (t l : ATree), resolve p t = some l → f l = (l, 0) →
      pathApply f p t = (t, 0) := by
  intro p
  induction p with
  | nil =>
    intro t l h hf
    simp [resolve] at h
    subst h
    exact hf
  | cons i p ih =>
    intro t l h hf
    rcases t with ⟨r, c, subs, d⟩
    rw [resolve_cons] at h
    rw [pathApply]
    cases hg : subs.get? i with
    | none => simp
    | some ch =>
      simp only [ATree.subtrees_mk, hg] at h
      simp only [hg]
      rw [ih ch l h hf, set_get?_self subs i ch hg]
      simp

theorem pathApply_shape (f : ATree → ATree × Int)
    (Hsubs : ∀ u, ((f u).1).subtrees = u.subtrees) :
    ∀ (p q : List Nat) (t : ATree),
      (resolve q (pathApply f p t).1).map (fun n => n.subtrees.isEmpty)
        = (resolve q t).map (fun n => n.subtrees.isEmpty) := by
  intro p
  induction p with
  | nil =>
    intro q t
    cases q with
    | nil => simp [resolve, pathApply, Hsubs t]
    | cons j q => rw [pathApply, resolve_cons, resolve_cons, Hsubs t]
  | cons i p ih =>
    intro q t
    rcases t with ⟨r, c, subs, d⟩
    rw [pathApply]
    cases hg : subs.get? i with
    | none => simp
    | some ch =>
      simp only [hg]
      cases q with
      | nil => simp [resolve, isEmpty_set]
      | cons j q =>
        by_cases hji : j = i
        · subst hji
          simp only [resolve_cons, ATree.subtrees_mk,
            get?_set_pos subs j (pathApply f p ch).1 ch hg, hg]
          exact ih q ch
        · simp only [resolve_cons, ATree.subtrees_mk,
            get?_set_neq subs i j (pathApply f p ch).1 (fun hij => hji hij.symm)]

theorem pathApply_leafAt (f : ATree → ATree × Int)
    (Hsubs : ∀ u, ((f u).1).subtrees = u.subtrees)
    (p q : List Nat) (t : ATree) : leafAt q (pathApply f p t).1 = leafAt q t := by
  have h := pathApply_shape f Hsubs p q t
  unfold leafAt
  cases h1 : resolve q t with
  | none =>
    cases h2 : resolve q (pathApply f p t).1 with
    | none => rfl
    | some n2 => rw [h1, h2] at h; simp at h
  | some n =>
    cases h2 : resolve q (pathApply f p t).1 with
    | none => rw [h1, h2] at h; simp at h
    | some n2 =>
      rw [h1, h2] at h
      simp at h
      simp [h]

/-! ### The local effects of delete and change_size -/

theorem delLocal_subtrees (u : ATree) : ((delLocal u).1).subtrees = u.subtrees := by
  rcases u with ⟨r, c, subs, d⟩
  by_cases h : r = none <;> simp [delLocal, h]

theorem delLocal_ds (u : ATree) :
    ((delLocal u).1).data_size = u.data_size + (delLocal u).2 := by
  rcases u with ⟨r, c, subs, d⟩
  by_cases h : r = none <;> simp [delLocal, h]

theorem chLocal_subtrees (s : String) (u : ATree) :
    ((chLocal s u).1).subtrees = u.subtrees := by
  rcases u with ⟨r, c, subs, d⟩
  rw [chLocal]
  split
  · rfl
  · split
    · rfl
    · rfl

theorem chLocal_ds (s : String) (u : ATree) :
    ((chLocal s u).1).data_size = u.data_size + (chLocal s u).2 := by
  rcases u with ⟨r, c, subs, d⟩
  rw [chLocal]
  split
  · simp
  · split
    · simp only []
      ring_nf
      simp [ATree.data_size]
      ring
    · simp

/-! ### Preservation of the weight invariant -/

theorem ceil01_nonneg (d : Int) (hd : 0 ≤ d) : 0 ≤ ceil01 d :=
  Int.fdiv_nonneg (by omega) (by norm_num)

theorem pathApply_wf (f : ATree → ATree × Int)
    (Hds : ∀ u, ((f u).1).data_size = u.data_size + (f u).2)
    (Hwf : ∀ u, wf u = true → u.subtrees = [] → wf (f u).1 = true) :
    ∀ (p : List Nat) (t : ATree), wf t = true → leafAt p t = true →
      wf (pathApply f p t).1 = true := by
  intro p
  induction p with
  | nil =>
    intro t hw hl
    have hsub : t.subtrees = [] := by
      unfold leafAt at hl
      simp [resolve] at hl
      exact hl
    exact Hwf t hw hsub
  | cons i p ih =>
    intro t hw hl
    rcases t with ⟨r, c, subs, d⟩
    rw [pathApply]
    cases hg : subs.get? i with
    | none => exact hw
    | some ch =>
      have hch_mem : ch ∈ subs := List.get?_mem hg
      have hsubs_ne : subs ≠ [] := by
        intro hnil
        rw [hnil] at hg
        simp at hg
      rw [wf_mk, Bool.and_eq_true, Bool.and_eq_true] at hw
      obtain ⟨⟨hd0, hsum⟩, hwl⟩ := hw
      have hsum' : d = sumSizes subs := by
        have h2 : subs.isEmpty = true ∨ d = sumSizes subs := by simpa using hsum
        rcases h2 with h | h
        · simp at h; exact absurd h hsubs_ne
        · exact h
      have hwch : wf ch = true := (wfList_iff subs).mp hwl ch hch_mem
      have hlch : leafAt p ch = true := by
        unfold leafAt at hl ⊢
        rw [resolve_cons] at hl
        simp only [ATree.subtrees_mk, hg] at hl
        exact hl
      have hwch' := ih ch hwch hlch
      have hds : (pathApply f p ch).1.data_size = ch.data_size + (pathApply f p ch).2 :=
        pathApply_data_size f Hds p ch
      have hwl' : wfList (subs.set i (pathApply f p ch).1) = true :=
        wfList_set subs i _ hwl hwch'
      have hsum2 : sumSizes (subs.set i (pathApply f p ch).1)
          = sumSizes subs - ch.data_size + (pathApply f p ch).1.data_size :=
        sumSizes_set subs i _ ch hg
      have hset_ne : (subs.set i (pathApply f p ch).1) ≠ [] := by
        intro hnil
        have := congrArg List.length hnil
        simp at this
        rw [this] at hg
        simp at hg
      simp only [wf_mk, Bool.and_eq_true]
      refine ⟨⟨?_, ?_⟩, hwl'⟩
      · have hnn := sumSizes_nonneg _ hwl'
        rw [hsum2, hds] at hnn
        simp only [ATree.data_size_mk, decide_eq_true_eq]
        omega
      · rw [Bool.or_eq_true]
        right
        simp only [ATree.data_size_mk, decide_eq_true_eq]
        rw [hsum2, hds]
        omega

theorem delLocal_wf (u : ATree) (hw : wf u = true) (hsub : u.subtrees = []) :
    wf (delLocal u).1 = true := by
  rcases u with ⟨r, c, subs, d⟩
  simp only [ATree.subtrees_mk] at hsub
  subst hsub
  by_cases h : r = none
  · simpa [delLocal, h] using hw
  · simp [delLocal, h, wf_mk, wfList]

theorem chLocal_wf (s : String) (u : ATree) (hw : wf u = true)
    (hsub : u.subtrees = []) : wf (chLocal s u).1 = true := by
  rcases u with ⟨r, c, subs, d⟩
  simp only [ATree.subtrees_mk] at hsub
  subst hsub
  rw [wf_mk] at hw
  simp only [List.isEmpty_nil, Bool.true_or, Bool.true_and, wfList,
    Bool.and_true, decide_eq_true_eq] at hw
  have hv := ceil01_nonneg d hw
  rw [chLocal]
  split
  · simp [wf_mk, wfList]
    omega
  · split
    · rename_i hcond
      simp [wf_mk, wfList]
      omega
    · simp [wf_mk, wfList]
      omega

theorem applyOp_wf (t : ATree) (op : Op) (hw : wf t = true)
    (hl : leafAt op.path t = true) : wf (applyOp t op) = true := by
  cases op with
  | del p =>
    exact pathApply_wf delLocal delLocal_ds delLocal_wf p t hw hl
  | resize p s =>
    exact pathApply_wf (chLocal s) (chLocal_ds s) (chLocal_wf s) p t hw hl

theorem applyOp_leafAt (t : ATree) (op : Op) (q : List Nat) :
    leafAt q (applyOp t op) = leafAt q t := by
  cases op with
  | del p => exact pathApply_leafAt delLocal delLocal_subtrees p q t
  | resize p s => exact pathApply_leafAt (chLocal s) (chLocal_subtrees s) p q t

theorem constructed_wf : ∀ t : ATree, Constructed t → wf t = true := by
  intro t hc
  induction hc with
  | leaf r c d hd =>
    simp [mkAbstractTree, wf_mk, wfList, hd]
  | node r c subs d hne hcs ih =>
    have hwl : wfList subs = true := (wfList_iff subs).mpr ih
    have hie : subs.isEmpty = false := by
      cases subs with
      | nil => exact absurd rfl hne
      | cons a l => rfl
    simp [mkAbstractTree, hie, wf_mk, hwl, sumSizes_nonneg subs hwl]

/-! ### Claim C1: the weight invariant -/

/-- C1: for every tree reachable by constructing nodes bottom-up and then
applying any sequence of delete and change_size operations on leaves,
every node with a non-empty children sequence has weight equal to the sum
of its children's weights, and every weight is non-negative (both facts
are the components of the Boolean predicate wf). -/
theorem C1_weight_invariant (t : ATree) (ops : List Op) (hc : Constructed t)
    (hops : ∀ op ∈ ops, leafAt op.path t = true) :
    wf (applyOps t ops) = true := by
  have hw := constructed_wf t hc
  clear hc
  unfold applyOps
  induction ops generalizing t with
  | nil => exact hw
  | cons op ops ih =>
    simp only [List.foldl_cons]
    apply ih
    · intro op2 hop2
      rw [applyOp_leafAt]
      exact hops op2 (by simp [hop2])
    · exact applyOp_wf t op hw (hops op (by simp))

theorem C1_weight_invariant_witness : wf (applyOps wRoot wOps) = true :=
  C1_weight_invariant wRoot wOps
    (Constructed.node (some "r") (0, 0, 0) [wLeafA, wLeafB] 0 (by simp)
      (by
        intro c hc
        simp only [List.mem_cons, List.mem_singleton, List.not_mem_nil,
          or_false] at hc
        rcases hc with h | h
        · rw [h]; exact Constructed.leaf (some "a") (0, 0, 0) 5 (by norm_num)
        · rw [h]; exact Constructed.leaf (some "b") (0, 0, 0) 7 (by norm_num)))
    (by decide)

/-! ### Claim C6: the semantics of delete -/

/-- C6: deleting a non-empty leaf of weight W zeroes its weight, clears
its label, keeps the node addressable at the same path with unchanged
children, decreases every proper ancestor's weight by exactly W, leaves
every node not on the path untouched; deleting an already empty leaf is a
no-op, and delete is idempotent. -/
theorem C6_delete_semantics (t : ATree) (p : List Nat) (l : ATree)
    (hres : resolve p t = some l) (hleaf : l.subtrees = []) :
    (l.root = none → ATree.delete p t = t) ∧
    (l.root ≠ none →
      resolve p (ATree.delete p t) = some (ATree.mk none l.colour l.subtrees 0) ∧
      (∀ q : List Nat, q <+: p → q ≠ p →
        (resolve q (ATree.delete p t)).map ATree.data_size
          = (resolve q t).map (fun n => n.data_size - l.data_size)) ∧
      (∀ q : List Nat, ¬ q <+: p → resolve q (ATree.delete p t) = resolve q t)) ∧
    ATree.delete p (ATree.delete p t) = ATree.delete p t := by
  have hnoop : l.root = none → delLocal l = (l, 0) := by
    intro h
    rcases l with ⟨r, c, subs, d⟩
    simp only [ATree.root_mk] at h
    simp [delLocal, h]
  have hdel : l.root ≠ none →
      delLocal l = (ATree.mk none l.colour l.subtrees 0, -l.data_size) := by
    intro h
    rcases l with ⟨r, c, subs, d⟩
    simp only [ATree.root_mk] at h
    simp [delLocal, h]
  refine ⟨?_, ?_, ?_⟩
  · intro h
    unfold ATree.delete
    rw [pathApply_noop delLocal p t l hres (hnoop h)]
  · intro h
    refine ⟨?_, ?_, ?_⟩
    · unfold ATree.delete
      rw [pathApply_resolve_self delLocal p t l hres, hdel h]
    · intro q hq hne
      unfold ATree.delete
      have h2 := pathApply_prefix_ds delLocal delLocal_ds p t l hres q hq hne
      rw [h2, hdel h]
      simp only [sub_eq_add_neg]
    · intro q hq
      unfold ATree.delete
      exact pathApply_offpath delLocal delLocal_subtrees p t l hres q hq
  · by_cases h : l.root = none
    · have hDel : ATree.delete p t = t := by
        unfold ATree.delete
        rw [pathApply_noop delLocal p t l hres (hnoop h)]
      rw [hDel]
      exact hDel
    · have h1 : resolve p (ATree.delete p t)
          = some (ATree.mk none l.colour l.subtrees 0) := by
        unfold ATree.delete
        rw [pathApply_resolve_self delLocal p t l hres, hdel h]
      unfold ATree.delete
      rw [pathApply_noop delLocal p (pathApply delLocal p t).1
        (ATree.mk none l.colour l.subtrees 0) h1 (by simp [delLocal])]

theorem C6_delete_semantics_witness :
    resolve [0] (ATree.delete [0] w6Root)
        = some (ATree.mk none w6Leaf.colour w6Leaf.subtrees 0) ∧
      ATree.delete [0] (ATree.delete [0] w6Root) = ATree.delete [0] w6Root :=
  ⟨((C6_delete_semantics w6Root [0] w6Leaf rfl rfl).2.1 (by decide)).1,
    (C6_delete_semantics w6Root [0] w6Leaf rfl rfl).2.2⟩

/-! ### Claim C7: the semantics of change_size -/

/-- C7: change_size computes delta as the 1 percent ceiling of the
pre-mutation weight w; an increase adds delta to the leaf and to every
ancestor unconditionally; a decrease applies only when w - delta stays
positive, subtracting delta from the leaf and every ancestor, and is a
silent no-op otherwise (so for w equal 1 a decrease changes nothing, and
for w equal 100 a decrease yields 99 and an increase 101, the witness
evaluating those instances). -/
theorem C7_change_size_semantics (t : ATree) (p : List Nat) (l : ATree)
    (hres : resolve p t = some l) (hleaf : l.subtrees = []) :
    (resolve p (ATree.change_size p "+" t)
        = some (ATree.mk l.root l.colour l.subtrees
            (l.data_size + ceil01 l.data_size)) ∧
      (∀ q : List Nat, q <+: p → q ≠ p →
        (resolve q (ATree.change_size p "+" t)).map ATree.data_size
          = (resolve q t).map (fun n => n.data_size + ceil01 l.data_size))) ∧
    (0 < l.data_size - ceil01 l.data_size →
      resolve p (ATree.change_size p "-" t)
          = some (ATree.mk l.root l.colour l.subtrees
              (l.data_size - ceil01 l.data_size)) ∧
        (∀ q : List Nat, q <+: p → q ≠ p →
          (resolve q (ATree.change_size p "-" t)).map ATree.data_size
            = (resolve q t).map (fun n => n.data_size - ceil01 l.data_size))) ∧
    (¬ 0 < l.data_size - ceil01 l.data_size →
      ATree.change_size p "-" t = t) := by
  have hplus : chLocal "+" l
      = (ATree.mk l.root l.colour l.subtrees (l.data_size + ceil01 l.data_size),
          ceil01 l.data_size) := by
    rcases l with ⟨r, c, subs, d⟩
    simp [chLocal]
  have hminus : 0 < l.data_size - ceil01 l.data_size → chLocal "-" l
      = (ATree.mk l.root l.colour l.subtrees (l.data_size - ceil01 l.data_size),
          -(ceil01 l.data_size)) := by
    intro h
    rcases l with ⟨r, c, subs, d⟩
    simp only [ATree.data_size_mk] at h
    rw [chLocal]
    simp [h]
  have hnone : ¬ 0 < l.data_size - ceil01 l.data_size → chLocal "-" l = (l, 0) := by
    intro h
    rcases l with ⟨r, c, subs, d⟩
    simp only [ATree.data_size_mk] at h
    rw [chLocal]
    simp [h]
  refine ⟨⟨?_, ?_⟩, ?_, ?_⟩
  · unfold ATree.change_size
    rw [pathApply_resolve_self (chLocal "+") p t l hres, hplus]
  · intro q hq hne
    unfold ATree.change_size
    rw [pathApply_prefix_ds (chLocal "+") (chLocal_ds "+") p t l hres q hq hne, hplus]
  · intro h
    refine ⟨?_, ?_⟩
    · unfold ATree.change_size
      rw [pathApply_resolve_self (chLocal "-") p t l hres, hminus h]
    · intro q hq hne
      unfold ATree.change_size
      rw [pathApply_prefix_ds (chLocal "-") (chLocal_ds "-") p t l hres q hq hne,
        hminus h]
      simp only [sub_eq_add_neg]
  · intro h
    unfold ATree.change_size
    rw [pathApply_noop (chLocal "-") p t l hres (hnone h)]

theorem C7_change_size_semantics_witness :
    resolve [0] (ATree.change_size [0] "+" w7Root)
        = some (ATree.mk (some "c") (0, 0, 0) [] 101) ∧
      resolve [0] (ATree.change_size [0] "-" w7Root)
        = some (ATree.mk (some "c") (0, 0, 0) [] 99) ∧
      ATree.change_size [] "-" w7One = w7One :=
  ⟨(C7_change_size_semantics w7Root [0] w7Leaf rfl rfl).1.1,
    ((C7_change_size_semantics w7Root [0] w7Leaf rfl rfl).2.1 (by decide)).1,
    (C7_change_size_semantics w7One [] w7One rfl rfl).2.2 (by decide)⟩

/-! ### Claim C4: leaf/layout correspondence -/

theorem tmLoop_map_snd (S width height : Int) :
    ∀ cs : List ATree,
      (∀ c ∈ cs, ∀ rect : Rect,
        (c.generate_treemap rect).map Prod.snd = c.list_leaves.map ATree.colour) →
      ∀ x y wl hl : Int,
        (tmLoop S width height cs x y wl hl).map Prod.snd
          = (llLoop cs).map ATree.colour := by
  intro cs
  induction cs with
  | nil => intro _ x y wl hl; rfl
  | cons t rest ih =>
    intro hIH x y wl hl
    cases rest with
    | nil =>
      rw [tmLoop, llLoop, llLoop]
      by_cases h : width > height <;> simp [h, hIH t (by simp)]
    | cons u rest2 =>
      rw [tmLoop, llLoop]
      have hIH2 : ∀ c ∈ u :: rest2, ∀ rect : Rect,
          (c.generate_treemap rect).map Prod.snd = c.list_leaves.map ATree.colour :=
        fun c hc => hIH c (by simp [List.mem_cons] at hc ⊢; tauto)
      by_cases h : width > height
      · simp [h, hIH t (by simp), ih hIH2]
      · simp [h, hIH t (by simp), ih hIH2]

theorem gen_map_snd : ∀ t : ATree, ∀ rect : Rect,
    (t.generate_treemap rect).map Prod.snd = t.list_leaves.map ATree.colour := by
  intro t
  induction t using ATree.ind with
  | h r c subs d ih =>
    intro rect
    rw [ATree.generate_treemap, ATree.list_leaves]
    by_cases hd : d = 0
    · simp [hd]
    · by_cases hsub : subs.isEmpty
      · simp [hd, hsub]
      · obtain ⟨x, y, w, h⟩ := rect
        simp only [hd, hsub, if_false]
        exact tmLoop_map_snd d w h subs ih x y w h

/-- C4: whenever the tree weight is positive, the layout list and the
leaf list have the same length, and element for element the i-th layout
entry carries the colour of the i-th leaf of list_leaves, the layout
entry being the one the recursion produces at that leaf. -/
theorem C4_leaf_layout_correspondence (t : ATree) (rect : Rect)
    (h : 0 < t.data_size) :
    (t.generate_treemap rect).length = t.list_leaves.length ∧
      (t.generate_treemap rect).map Prod.snd = t.list_leaves.map ATree.colour := by
  have h2 := gen_map_snd t rect
  refine ⟨?_, h2⟩
  have h3 := congrArg List.length h2
  simpa using h3

theorem C4_leaf_layout_correspondence_witness :
    (tWorld.generate_treemap (0, 0, 200, 100)).length = tWorld.list_leaves.length ∧
      (tWorld.generate_treemap (0, 0, 200, 100)).map Prod.snd
        = tWorld.list_leaves.map ATree.colour :=
  C4_leaf_layout_correspondence tWorld (0, 0, 200, 100) (by decide)

/-! ### Claim C3: the slicing algorithm -/

theorem tmLoop_eq_strips (S width height : Int) :
    ∀ (cs : List ATree) (x y wl hl : Int),
      tmLoop S width height cs x y wl hl
        = (List.zipWith (fun (ch : ATree) (strip : Rect) => ch.generate_treemap strip)
            cs
            (stripsGo S (max width height) width height (decide (height ≥ width))
              (cs.map ATree.data_size) x y wl hl)).flatten := by
  intro cs
  induction cs with
  | nil => intro x y wl hl; rfl
  | cons t rest ih =>
    intro x y wl hl
    cases rest with
    | nil =>
      by_cases h : width > height
      · have hv : decide (height ≥ width) = false := by simp; omega
        simp [tmLoop, stripsGo, hv, h]
      · have hv : decide (height ≥ width) = true := by simp; omega
        simp [tmLoop, stripsGo, hv, h]
    | cons u rest2 =>
      by_cases h : width > height
      · have hv : decide (height ≥ width) = false := by simp; omega
        rw [tmLoop]
        simp only [List.map_cons, stripsGo, hv, Bool.false_eq_true, if_false, h,
          if_true, List.zipWith_cons_cons, List.flatten_cons]
        rw [ih, hv]
        simp [List.map_cons]
      · have hv : decide (height ≥ width) = true := by simp; omega
        rw [tmLoop]
        simp only [List.map_cons, stripsGo, hv, if_true, h, Bool.false_eq_true,
          if_false, List.zipWith_cons_cons, List.flatten_cons]
        rw [ih, hv]
        simp [List.map_cons]

/-- C3: for an internal node of non-zero weight, generate_treemap slices
the rectangle along its longer axis (ties, height at least width, taken
as the vertical split), allotting every child but the last a strip of
extent floor of its weight share of the longer extent with the cursor
advancing by that extent, the last child the entire remaining extent,
and recurses into each child with its strip, concatenating the results
in child order; the right-hand side is the specification's description
specChildStrips. -/
theorem C3_strip_slicing (r : Option String) (c : Colour) (subs : List ATree)
    (d : Int) (rect : Rect) (hd : d ≠ 0) (hsub : subs ≠ []) :
    ATree.generate_treemap (.mk r c subs d) rect
      = (List.zipWith (fun (ch : ATree) (strip : Rect) => ch.generate_treemap strip)
          subs (specChildStrips d rect (subs.map ATree.data_size))).flatten := by
  obtain ⟨x, y, w, h⟩ := rect
  rw [ATree.generate_treemap]
  have hie : subs.isEmpty = false := by
    cases subs with
    | nil => exact absurd rfl hsub
    | cons a l => rfl
  simp only [hd, if_false, hie, Bool.false_eq_true]
  rw [specChildStrips]
  exact tmLoop_eq_strips d w h subs x y w h

theorem C3_strip_slicing_witness :
    ATree.generate_treemap (.mk (some "World") (6, 6, 6) [tAsia, tEurope] 200)
        (0, 0, 200, 100)
      = (List.zipWith (fun (ch : ATree) (strip : Rect) => ch.generate_treemap strip)
          [tAsia, tEurope]
          (specChildStrips 200 (0, 0, 200, 100)
            ([tAsia, tEurope].map ATree.data_size))).flatten :=
  C3_strip_slicing (some "World") (6, 6, 6) [tAsia, tEurope] 200 (0, 0, 200, 100)
    (by decide) (by simp)

/-! ### Claim C5: the population scenario -/

/-- C5 as stated is false: in the layout of the World tree on the
rectangle from (0,0) with width 200 and height 100, no rectangle is the
claimed Europe strip of width 100 at x = 100; the Europe subtree's only
leaf France receives the last entry (190, 0, 10, 100), so Europe covers
x in [190, 200) and not [100, 200). -/
theorem C5_scenario_counterexample :
    (tWorld.generate_treemap (0, 0, 200, 100)).getLast?
        = some ((190, 0, 10, 100), (3, 3, 3)) ∧
      ¬ ∃ pr ∈ tWorld.generate_treemap (0, 0, 200, 100),
          pr.1 = ((100 : Int), 0, 100, 100) := by
  decide

/-- C5 amended: on the rectangle (0, 0, 200, 100) the World tree of
weight 200 gives Asia (weight 190) the 190-wide strip covering x in
[0, 190), within which China gets (0, 0, 100, 100) and India
(100, 0, 90, 100), and the last sibling Europe (weight 10) receives the
remaining 10-wide strip, its leaf France getting (190, 0, 10, 100). -/
theorem C5_scenario :
    tWorld.generate_treemap (0, 0, 200, 100)
      = [((0, 0, 100, 100), (1, 1, 1)), ((100, 0, 90, 100), (2, 2, 2)),
          ((190, 0, 10, 100), (3, 3, 3))] := by
  decide

/-! ### Claim C8: the empty tree contract -/

/-- C8 as stated is false: the constructor precondition only requires
that an absent label comes with an empty subtree list, so it accepts an
absent label together with a non-zero weight, and the resulting tree has
weight 5 and non-empty list_leaves and generate_treemap results. -/
theorem C8_empty_tree_counterexample :
    emptyLabelTree.root = none ∧ emptyLabelTree.data_size = 5 ∧
      emptyLabelTree.list_leaves = [emptyLabelTree] ∧
      emptyLabelTree.generate_treemap (0, 0, 1, 1) = [((0, 0, 1, 1), (0, 0, 0))] :=
  ⟨rfl, rfl, rfl, rfl⟩

/-- C8 amended: a tree constructed with absent label, empty subtree list
(as the precondition requires) and weight argument 0 has empty children,
weight 0 and absent label, and any tree in that canonical empty state
(absent label, weight 0) has empty list_leaves and an empty layout for
every rectangle; parent absence holds because the embedding's constructor
returns a standalone root. -/
theorem C8_empty_tree_contract (c : Colour) (t : ATree)
    (hroot : t.root = none) (hds : t.data_size = 0) :
    (mkAbstractTree none c [] 0).subtrees = [] ∧
      (mkAbstractTree none c [] 0).data_size = 0 ∧
      (mkAbstractTree none c [] 0).root = none ∧
      t.list_leaves = [] ∧ ∀ r : Rect, t.generate_treemap r = [] := by
  rcases t with ⟨r0, c0, subs0, d0⟩
  simp only [ATree.data_size_mk] at hds
  subst hds
  refine ⟨rfl, rfl, rfl, ?_, ?_⟩
  · rw [ATree.list_leaves]
    simp
  · intro r
    rw [ATree.generate_treemap]
    simp

theorem C8_empty_tree_contract_witness :
    ((mkAbstractTree none ((7 : Nat), 7, 7) [] 0).subtrees = []) ∧
      ((mkAbstractTree none ((7 : Nat), 7, 7) [] 0).data_size = 0) ∧
      ((mkAbstractTree none ((7 : Nat), 7, 7) [] 0).root = none) ∧
      (mkAbstractTree none ((7 : Nat), 7, 7) [] 0).list_leaves = [] ∧
      ∀ r : Rect, (mkAbstractTree none ((7 : Nat), 7, 7) [] 0).generate_treemap r = [] :=
  C8_empty_tree_contract (7, 7, 7) (mkAbstractTree none (7, 7, 7) [] 0) rfl rfl

/-! ### Claims C9 and C10: hit testing -/

theorem find?_exists {α : Type} (p : α → Bool) :
    ∀ l : List α, (∃ x ∈ l, p x = true) →
      ∃ x, x ∈ l ∧ p x = true ∧ l.find? p = some x := by
  intro l
  induction l with
  | nil => intro h; simp at h
  | cons a l ih =>
    intro h
    by_cases hpa : p a = true
    · exact ⟨a, by simp, hpa, by simp [List.find?, hpa]⟩
    · have hpa' : p a = false := by revert hpa; cases p a <;> simp
      rcases h with ⟨x, hx, hpx⟩
      have hx' : x ∈ l := by
        rcases List.mem_cons.mp hx with h1 | h1
        · rw [h1] at hpx; exact absurd hpx hpa
        · exact h1
      rcases ih ⟨x, hx', hpx⟩ with ⟨y, hy, hpy, hfind⟩
      exact ⟨y, by simp [hy], hpy, by simp [List.find?, hpa', hfind]⟩

theorem find?_none {α : Type} (p : α → Bool) :
    ∀ l : List α, (∀ x ∈ l, p x = false) → l.find? p = none := by
  intro l
  induction l with
  | nil => intro _; rfl
  | cons a l ih =>
    intro h
    have hpa := h a (by simp)
    simp only [List.find?, hpa]
    exact ih (fun x hx => h x (by simp [hx]))

theorem find?_first {α : Type} (p : α → Bool) :
    ∀ (l : List α) (i : Nat) (hi : i < l.length),
      (∀ x ∈ l.take i, p x = false) → p (l.get ⟨i, hi⟩) = true →
      l.find? p = some (l.get ⟨i, hi⟩) := by
  intro l
  induction l with
  | nil => intro i hi; simp at hi
  | cons a l ih =>
    intro i hi hprev hcur
    cases i with
    | zero =>
      simp only [List.get] at hcur
      simp [List.find?, hcur]
    | succ i =>
      have hpa : p a = false := hprev a (by simp)
      simp only [List.get] at hcur ⊢
      simp only [List.find?, hpa]
      exact ih i (by simpa using hi)
        (fun x hx => hprev x (by simp [hx])) hcur

/-- C9: against a layout produced for the current tree, get_leaf pairs
the leaves with the layout rectangles positionally; when some paired
rectangle contains the query point with inclusive bounds it returns one
of the matching leaves, when none does it returns none, and on an empty
layout it returns none; in all cases an explicit Option result, never a
failure. -/
theorem C9_hit_test (t : ATree) (pos : Int × Int) (rect : Rect)
    (treemap : List (Rect × Colour))
    (hfresh : treemap = t.generate_treemap rect) :
    (treemap = [] → t.get_leaf pos treemap = none) ∧
      ((∃ pr ∈ t.list_leaves.zip (treemap.map Prod.fst),
          containsPoint pos pr.2 = true) →
        ∃ pr ∈ t.list_leaves.zip (treemap.map Prod.fst),
          containsPoint pos pr.2 = true ∧ t.get_leaf pos treemap = some pr.1) ∧
      ((∀ pr ∈ t.list_leaves.zip (treemap.map Prod.fst),
          containsPoint pos pr.2 = false) →
        t.get_leaf pos treemap = none) := by
  refine ⟨?_, ?_, ?_⟩
  · intro h
    rw [h]
    rfl
  · intro hex
    cases htm : treemap with
    | nil =>
      rw [htm] at hex
      simp at hex
    | cons hd tl =>
      rw [htm] at hex
      rcases find?_exists (fun pr => containsPoint pos pr.2) _ hex with
        ⟨x, hx, hpx, hfind⟩
      refine ⟨x, hx, hpx, ?_⟩
      rw [ATree.get_leaf]
      simp only [List.isEmpty_cons, if_false, Bool.false_eq_true]
      rw [hfind]
      rfl
  · intro hall
    cases htm : treemap with
    | nil => rfl
    | cons hd tl =>
      rw [htm] at hall
      rw [ATree.get_leaf]
      simp only [List.isEmpty_cons, if_false, Bool.false_eq_true]
      have hn := find?_none (fun (pr : ATree × Rect) => containsPoint pos pr.2)
        (t.list_leaves.zip (List.map Prod.fst (hd :: tl))) hall
      rw [hn]
      rfl

theorem C9_hit_test_witness :
    ∃ pr ∈ boundaryTree.list_leaves.zip
        ((boundaryTree.generate_treemap (0, 0, 2, 1)).map Prod.fst),
      containsPoint (1, 0) pr.2 = true ∧
        boundaryTree.get_leaf (1, 0) (boundaryTree.generate_treemap (0, 0, 2, 1))
          = some pr.1 :=
  (C9_hit_test boundaryTree (1, 0) (0, 0, 2, 1)
      (boundaryTree.generate_treemap (0, 0, 2, 1)) rfl).2.1 (by decide)

/-- C10: when the query point lies inside the rectangles paired with two
or more leaves, for instance exactly on a boundary shared by adjacent
strips, get_leaf returns the first positional match in list_leaves
order: if every pair before index i fails the containment test and the
pair at i passes it, the result is the leaf of pair i. -/
theorem C10_first_match (t : ATree) (pos : Int × Int) (rect : Rect)
    (treemap : List (Rect × Colour)) (hfresh : treemap = t.generate_treemap rect)
    (i : Nat) (hi : i < (t.list_leaves.zip (treemap.map Prod.fst)).length)
    (hprev : ∀ pr ∈ (t.list_leaves.zip (treemap.map Prod.fst)).take i,
      containsPoint pos pr.2 = false)
    (hcur : containsPoint pos
        ((t.list_leaves.zip (treemap.map Prod.fst)).get ⟨i, hi⟩).2 = true) :
    t.get_leaf pos treemap
      = some ((t.list_leaves.zip (treemap.map Prod.fst)).get ⟨i, hi⟩).1 := by
  have hlen : 0 < treemap.length := by
    have h1 : (t.list_leaves.zip (treemap.map Prod.fst)).length
        ≤ (treemap.map Prod.fst).length := by
      rw [List.length_zip]
      omega
    rw [List.length_map] at h1
    omega
  have htm : treemap.isEmpty = false := by
    refine Bool.eq_false_iff.mpr ?_
    intro h
    rw [List.isEmpty_iff] at h
    rw [h] at hlen
    simp at hlen
  rw [ATree.get_leaf]
  simp only [htm, Bool.false_eq_true, if_false]
  have hf := find?_first (fun (pr : ATree × Rect) => containsPoint pos pr.2)
    (t.list_leaves.zip (treemap.map Prod.fst)) i hi hprev hcur
  rw [hf]
  rfl

theorem C10_first_match_witness :
    boundaryTree.get_leaf (1, 0) (boundaryTree.generate_treemap (0, 0, 2, 1))
      = some (mkAbstractTree (some "left") (1, 1, 1) [] 1) :=
  C10_first_match boundaryTree (1, 0) (0, 0, 2, 1)
    (boundaryTree.generate_treemap (0, 0, 2, 1)) rfl 0 (by decide) (by decide)
    (by decide)

/-! ### Claim C2: tiling exactness, auxiliary lemmas -/

theorem sumAreas_append (l1 l2 : List (Rect × Colour)) :
    sumAreas (l1 ++ l2) = sumAreas l1 + sumAreas l2 := by
  simp [sumAreas]

theorem rectInside_refl (r : Rect) : rectInside r r := by
  unfold rectInside
  omega

theorem rectInside_trans {a b c : Rect} (h1 : rectInside a b)
    (h2 : rectInside b c) : rectInside a c := by
  unfold rectInside at *
  omega

theorem rectDisjoint_of_inside {a b r1 r2 : Rect} (hd : rectDisjoint r1 r2)
    (ha : rectInside a r1) (hb : rectInside b r2) : rectDisjoint a b := by
  unfold rectDisjoint rectInside at *
  omega

theorem Tiles_append {o1 o2 : List (Rect × Colour)} {r1 r2 R : Rect}
    (h1 : Tiles o1 r1) (h2 : Tiles o2 r2) (hin1 : rectInside r1 R)
    (hin2 : rectInside r2 R) (harea : rectArea r1 + rectArea r2 = rectArea R)
    (hd : rectDisjoint r1 r2) : Tiles (o1 ++ o2) R := by
  obtain ⟨ha1, hi1, hp1⟩ := h1
  obtain ⟨ha2, hi2, hp2⟩ := h2
  refine ⟨?_, ?_, ?_⟩
  · rw [sumAreas_append, ha1, ha2, harea]
  · intro pr hpr
    rcases List.mem_append.mp hpr with h | h
    · exact rectInside_trans (hi1 pr h) hin1
    · exact rectInside_trans (hi2 pr h) hin2
  · rw [List.pairwise_append]
    refine ⟨hp1, hp2, ?_⟩
    intro a ha b hb
    exact rectDisjoint_of_inside hd (hi1 a ha) (hi2 b hb)

theorem Tiles_single (re : Rect) (c : Colour) : Tiles [(re, c)] re := by
  refine ⟨?_, ?_, ?_⟩
  · simp [sumAreas, rectArea]
  · intro pr hpr
    simp at hpr
    rw [hpr]
    exact rectInside_refl re
  · simp

theorem Tiles_nil_of_area_zero (re : Rect) (h : rectArea re = 0) : Tiles [] re := by
  refine ⟨?_, ?_, ?_⟩
  · simp [sumAreas, h]
  · intro pr hpr
    simp at hpr
  · simp

theorem gen_zero (t : ATree) (h : t.data_size = 0) :
    ∀ re : Rect, t.generate_treemap re = [] := by
  rcases t with ⟨r, c, subs, d⟩
  intro re
  simp only [ATree.data_size_mk] at h
  rw [ATree.generate_treemap]
  simp [h]

theorem mul_fdiv_le (a S : Int) (hS : 0 < S) : S * Int.fdiv a S ≤ a := by
  rw [Int.fdiv_eq_ediv a (le_of_lt hS)]
  have h1 := Int.ediv_add_emod a S
  have h2 := Int.emod_nonneg a (by omega : S ≠ 0)
  linarith

theorem nonneg_of_mul_nonneg_left (S x : Int) (h : 0 ≤ S * x) (hS : 0 < S) :
    0 ≤ x := by
  by_contra hneg
  push_neg at hneg
  nlinarith

theorem wf_ds_nonneg (t : ATree) (h : wf t = true) : 0 ≤ t.data_size := by
  rcases t with ⟨r, c, subs, d⟩
  rw [wf_mk, Bool.and_eq_true, Bool.and_eq_true] at h
  simpa using of_decide_eq_true h.1.1

theorem wf_elim (r : Option String) (c : Colour) (subs : List ATree) (d : Int)
    (h : wf (.mk r c subs d) = true) :
    0 ≤ d ∧ (subs ≠ [] → d = sumSizes subs) ∧ wfList subs = true := by
  rw [wf_mk, Bool.and_eq_true, Bool.and_eq_true] at h
  refine ⟨of_decide_eq_true h.1.1, ?_, h.2⟩
  intro hne
  have h2 : subs.isEmpty = true ∨ d = sumSizes subs := by simpa using h.1.2
  rcases h2 with h3 | h3
  · simp at h3
    exact absurd h3 hne
  · exact h3

theorem posLast_elim (r : Option String) (c : Colour) (subs : List ATree)
    (d : Int) (h : posLast (.mk r c subs d) = true) (hd : 0 < d) (lst : ATree)
    (hlst : subs.getLast? = some lst) :
    0 < lst.data_size ∧ posLastList subs = true := by
  rw [posLast] at h
  have hd' : ¬ d ≤ 0 := by omega
  simp only [hd', if_false] at h
  rw [hlst] at h
  simpa using h

theorem tmLoopH_tiles (S width height : Int) (hS : 0 < S) (hgt : width > height)
    (hh : 0 ≤ height) :
    ∀ cs : List ATree, cs ≠ [] →
      (∀ c ∈ cs, wf c = true → posLast c = true → 0 < c.data_size →
        ∀ re : Rect, 0 ≤ rW re → 0 ≤ rH re → Tiles (c.generate_treemap re) re) →
      wfList cs = true → posLastList cs = true →
      (∀ lst, cs.getLast? = some lst → 0 < lst.data_size) →
      ∀ cx yy wl hl : Int, sumSizes cs * width ≤ S * wl →
        Tiles (tmLoop S width height cs cx yy wl hl) (cx, yy, wl, height) := by
  intro cs
  induction cs with
  | nil =>
    intro h
    exact absurd rfl h
  | cons c rest ih =>
    intro _ hIH hwf hpl hlast cx yy wl hl hinv
    rw [wfList, Bool.and_eq_true] at hwf
    obtain ⟨hwfc, hwfr⟩ := hwf
    rw [posLastList, Bool.and_eq_true] at hpl
    obtain ⟨hplc, hplr⟩ := hpl
    have hc0 : 0 ≤ c.data_size := wf_ds_nonneg c hwfc
    have hw0 : 0 < width := by omega
    have hmax : max width height = width := max_eq_left (by omega)
    cases rest with
    | nil =>
      have hlc : 0 < c.data_size := hlast c rfl
      have hsumc : sumSizes [c] = c.data_size := by
        rw [sumSizes_cons]
        simp [sumSizes]
      rw [hsumc] at hinv
      have hwl : 0 ≤ wl := by
        have h1 : 0 ≤ c.data_size * width := mul_nonneg hc0 (le_of_lt hw0)
        exact nonneg_of_mul_nonneg_left S wl (le_trans h1 hinv) hS
      rw [tmLoop]
      simp only [hgt, if_true]
      exact hIH c (by simp) hwfc hplc hlc (cx, yy, wl, height) hwl hh
    | cons u rest2 =>
      rw [tmLoop]
      simp only [hmax, hgt, if_true]
      set v := Int.fdiv (c.data_size * width) S with hvdef
      have hv0 : 0 ≤ v :=
        Int.fdiv_nonneg (mul_nonneg hc0 (le_of_lt hw0)) (le_of_lt hS)
      have hvle : S * v ≤ c.data_size * width := mul_fdiv_le _ S hS
      have hsum_rest : 0 ≤ sumSizes (u :: rest2) := sumSizes_nonneg _ hwfr
      have hsum_cons : sumSizes (c :: u :: rest2)
          = c.data_size + sumSizes (u :: rest2) := sumSizes_cons c (u :: rest2)
      rw [hsum_cons] at hinv
      have hvwl : v ≤ wl := by
        have h1 : c.data_size * width ≤ S * wl := by nlinarith
        have h2 : S * v ≤ S * wl := le_trans hvle h1
        exact le_of_mul_le_mul_left h2 hS
      have hinv2 : sumSizes (u :: rest2) * width ≤ S * (wl - v) := by nlinarith
      have htile1 : Tiles (c.generate_treemap (cx, yy, v, height))
          (cx, yy, v, height) := by
        rcases eq_or_lt_of_le hc0 with hz | hpos
        · have hv_eq : v = 0 := by
            rw [hvdef, ← hz]
            simp
          rw [gen_zero c hz.symm, hv_eq]
          exact Tiles_nil_of_area_zero _ (by simp [rectArea, rW, rH])
        · exact hIH c (by simp) hwfc hplc hpos (cx, yy, v, height) hv0 hh
      have htile2 : Tiles
          (tmLoop S width height (u :: rest2) (cx + v) yy (wl - v) hl)
          (cx + v, yy, wl - v, height) :=
        ih (by simp) (fun c' hc' => hIH c' (by simp [hc'])) hwfr hplr
          (fun lst hlst => hlast lst (by rw [List.getLast?_cons_cons]; exact hlst))
          (cx + v) yy (wl - v) hl hinv2
      refine Tiles_append htile1 htile2 ?_ ?_ ?_ ?_
      · unfold rectInside rX rY rW rH
        simp only []
        omega
      · unfold rectInside rX rY rW rH
        simp only []
        omega
      · unfold rectArea rW rH
        simp only []
        ring
      · unfold rectDisjoint rX rY rW rH
        simp only []
        omega

theorem tmLoopV_tiles (S width height : Int) (hS : 0 < S) (hge : width ≤ height)
    (hw : 0 ≤ width) :
    ∀ cs : List ATree, cs ≠ [] →
      (∀ c ∈ cs, wf c = true → posLast c = true → 0 < c.data_size →
        ∀ re : Rect, 0 ≤ rW re → 0 ≤ rH re → Tiles (c.generate_treemap re) re) →
      wfList cs = true → posLastList cs = true →
      (∀ lst, cs.getLast? = some lst → 0 < lst.data_size) →
      ∀ cx yy wl hl : Int, sumSizes cs * height ≤ S * hl →
        Tiles (tmLoop S width height cs cx yy wl hl) (cx, yy, width, hl) := by
  intro cs
  induction cs with
  | nil =>
    intro h
    exact absurd rfl h
  | cons c rest ih =>
    intro _ hIH hwf hpl hlast cx yy wl hl hinv
    rw [wfList, Bool.and_eq_true] at hwf
    obtain ⟨hwfc, hwfr⟩ := hwf
    rw [posLastList, Bool.and_eq_true] at hpl
    obtain ⟨hplc, hplr⟩ := hpl
    have hc0 : 0 ≤ c.data_size := wf_ds_nonneg c hwfc
    have hh0 : 0 ≤ height := le_trans hw hge
    have hngt : ¬ width > height := by omega
    have hmax : max width height = height := max_eq_right hge
    cases rest with
    | nil =>
      have hlc : 0 < c.data_size := hlast c rfl
      have hsumc : sumSizes [c] = c.data_size := by
        rw [sumSizes_cons]
        simp [sumSizes]
      rw [hsumc] at hinv
      have hhl : 0 ≤ hl := by
        have h1 : 0 ≤ c.data_size * height := mul_nonneg hc0 hh0
        exact nonneg_of_mul_nonneg_left S hl (le_trans h1 hinv) hS
      rw [tmLoop]
      simp only [hngt, if_false]
      exact hIH c (by simp) hwfc hplc hlc (cx, yy, width, hl) hw hhl
    | cons u rest2 =>
      rw [tmLoop]
      simp only [hmax, hngt, if_false]
      set v := Int.fdiv (c.data_size * height) S with hvdef
      have hv0 : 0 ≤ v := Int.fdiv_nonneg (mul_nonneg hc0 hh0) (le_of_lt hS)
      have hvle : S * v ≤ c.data_size * height := mul_fdiv_le _ S hS
      have hsum_rest : 0 ≤ sumSizes (u :: rest2) := sumSizes_nonneg _ hwfr
      have hsum_cons : sumSizes (c :: u :: rest2)
          = c.data_size + sumSizes (u :: rest2) := sumSizes_cons c (u :: rest2)
      rw [hsum_cons] at hinv
      have hvhl : v ≤ hl := by
        have h1 : c.data_size * height ≤ S * hl := by nlinarith
        have h2 : S * v ≤ S * hl := le_trans hvle h1
        exact le_of_mul_le_mul_left h2 hS
      have hinv2 : sumSizes (u :: rest2) * height ≤ S * (hl - v) := by nlinarith
      have htile1 : Tiles (c.generate_treemap (cx, yy, width, v))
          (cx, yy, width, v) := by
        rcases eq_or_lt_of_le hc0 with hz | hpos
        · have hv_eq : v = 0 := by
            rw [hvdef, ← hz]
            simp
          rw [gen_zero c hz.symm, hv_eq]
          exact Tiles_nil_of_area_zero _ (by simp [rectArea, rW, rH])
        · exact hIH c (by simp) hwfc hplc hpos (cx, yy, width, v) hw hv0
      have htile2 : Tiles
          (tmLoop S width height (u :: rest2) cx (yy + v) wl (hl - v))
          (cx, yy + v, width, hl - v) :=
        ih (by simp) (fun c' hc' => hIH c' (by simp [hc'])) hwfr hplr
          (fun lst hlst => hlast lst (by rw [List.getLast?_cons_cons]; exact hlst))
          cx (yy + v) wl (hl - v) hinv2
      refine Tiles_append htile1 htile2 ?_ ?_ ?_ ?_
      · unfold rectInside rX rY rW rH
        simp only []
        omega
      · unfold rectInside rX rY rW rH
        simp only []
        omega
      · unfold rectArea rW rH
        simp only []
        ring
      · unfold rectDisjoint rX rY rW rH
        simp only []
        omega

theorem gen_tiles : ∀ t : ATree, wf t = true → posLast t = true →
    0 < t.data_size → ∀ re : Rect, 0 ≤ rW re → 0 ≤ rH re →
    Tiles (t.generate_treemap re) re := by
  intro t
  induction t using ATree.ind with
  | h r c subs d ih =>
    intro hwf hpl hd re hw hh
    simp only [ATree.data_size_mk] at hd
    obtain ⟨x, y, width, height⟩ := re
    simp only [rW, rH] at hw hh
    rw [ATree.generate_treemap]
    have hd0 : ¬ d = 0 := by omega
    simp only [hd0, if_false]
    by_cases hsub : subs.isEmpty
    · simp only [hsub, if_true]
      exact Tiles_single (x, y, width, height) c
    · simp only [hsub, Bool.false_eq_true, if_false]
      have hsubne : subs ≠ [] := by
        intro hnil
        rw [hnil] at hsub
        exact hsub rfl
      obtain ⟨_, hsum, hwfl⟩ := wf_elim r c subs d hwf
      have hsum' : d = sumSizes subs := hsum hsubne
      cases hget : subs.getLast? with
      | none =>
        rw [List.getLast?_eq_none_iff] at hget
        exact absurd hget hsubne
      | some lst =>
        obtain ⟨hlstpos, hpll⟩ := posLast_elim r c subs d hpl hd lst hget
        have hlast : ∀ l', subs.getLast? = some l' → 0 < l'.data_size := by
          intro l' hl'
          rw [hget] at hl'
          injection hl' with hl2
          rw [← hl2]
          exact hlstpos
        by_cases hgt : width > height
        · exact tmLoopH_tiles d width height hd hgt hh subs hsubne
            (fun c' hc' => ih c' hc') hwfl hpll hlast x y width height
            (by rw [← hsum'])
        · exact tmLoopV_tiles d width height hd (by omega) hw subs hsubne
            (fun c' hc' => ih c' hc') hwfl hpll hlast x y width height
            (by rw [← hsum'])

/-- C2 as stated is false: zeroLastTree satisfies the weight invariant,
has weight 2 greater than 0, and the rectangle (0, 0, 3, 1) has
non-negative extents, yet the last child has weight 0, receives the
remainder strip (2, 0, 1, 1), contributes no rectangle, and the layout
areas total 2 instead of 3 * 1, leaving a gap. -/
theorem C2_tiling_counterexample :
    wf zeroLastTree = true ∧ 0 < zeroLastTree.data_size ∧
      sumAreas (zeroLastTree.generate_treemap (0, 0, 3, 1)) = 2 ∧
      sumAreas (zeroLastTree.generate_treemap (0, 0, 3, 1)) ≠ 3 * 1 := by
  decide

/-- C2 amended: for every tree satisfying the weight invariant with
weight greater than 0 in which, recursively, every positive-weight node
with children has a positive-weight last child (posLast, ruling out the
zero-weight-last-child gap of the counterexample), and every rectangle
with non-negative extents, the rectangles of the layout exactly
partition the rectangle: their areas sum to width times height, each
lies inside the rectangle, and no two overlap in their interiors. -/
theorem C2_tiling_exactness (t : ATree) (x y width height : Int)
    (hwf : wf t = true) (hpl : posLast t = true) (hpos : 0 < t.data_size)
    (hw : 0 ≤ width) (hh : 0 ≤ height) :
    sumAreas (t.generate_treemap (x, y, width, height)) = width * height ∧
      (∀ pr ∈ t.generate_treemap (x, y, width, height),
        rectInside pr.1 (x, y, width, height)) ∧
      (t.generate_treemap (x, y, width, height)).Pairwise
        (fun a b => rectDisjoint a.1 b.1) := by
  have h := gen_tiles t hwf hpl hpos (x, y, width, height) hw hh
  obtain ⟨h1, h2, h3⟩ := h
  exact ⟨by simpa [rectArea, rW, rH] using h1, h2, h3⟩

theorem C2_tiling_exactness_witness :
    sumAreas (tWorld.generate_treemap (0, 0, 200, 100)) = 200 * 100 ∧
      (∀ pr ∈ tWorld.generate_treemap (0, 0, 200, 100),
        rectInside pr.1 (0, 0, 200, 100)) ∧
      (tWorld.generate_treemap (0, 0, 200, 100)).Pairwise
        (fun a b => rectDisjoint a.1 b.1) :=
  C2_tiling_exactness tWorld 0 0 200 100 (by decide) (by decide) (by decide)
    (by decide) (by decide)

end Treemap
